import Mathlib

/-!
# Verification of the sarma-crm normalization and fuzzy-reconciliation engine

Shallow embedding of `app/product_parser.py`: the text normalizer
(`normalize_text`), the catalog line parser (`parse_product_line`), the
canonical name builder (`build_canonical_name`), the weight extractor
(`extract_weight`), the raw-label flavor extractor (`extract_flavor_from_raw`)
and the fuzzy matcher (`match_product_by_flavor`).

Strings are modelled as `List Char` internally (`String.data`), Python `int`
as `Int`/`Nat`, and the rapidfuzz similarity scores as `ℚ`.  The third-party
scorer `fuzz.WRatio` is not repository code; following the design notes of the
specification it is treated as a parameter `scorer : String → String → ℚ` of
the matcher.  Python's `set` iteration order (used when collecting candidate
brands) is unspecified, so the flavor extractor takes the enumeration of the
distinct lowercased brands as an explicit list parameter.
-/

namespace SarmaCRM

/-! ## Character classes

Python's `str.lower()` is modelled for the two alphabets the specification
scopes to (ASCII Latin and Cyrillic, including Ё/ё); characters outside these
alphabets are left unchanged, exactly as the later character-class filters
expect.  `\s` and `str.split()` whitespace is modelled by the common Python
whitespace set. -/

/-- ASCII uppercase `A`–`Z` (code points 65–90). -/
def upperLatin (c : Char) : Bool := 65 ≤ c.toNat && c.toNat ≤ 90

/-- ASCII lowercase `a`–`z` (code points 97–122). -/
def lowerLatin (c : Char) : Bool := 97 ≤ c.toNat && c.toNat ≤ 122

/-- Cyrillic uppercase `А`–`Я` (code points 1040–1071). -/
def upperCyr (c : Char) : Bool := 1040 ≤ c.toNat && c.toNat ≤ 1071

/-- Cyrillic lowercase `а`–`я` (code points 1072–1103), as in the regex class
`[а-я]` of the source.  Note `ё` (1105) is outside this range. -/
def lowerCyr (c : Char) : Bool := 1072 ≤ c.toNat && c.toNat ≤ 1103

/-- ASCII digit `0`–`9`, the `\d` and `[0-9]` class of the source regexes. -/
def digitB (c : Char) : Bool := 48 ≤ c.toNat && c.toNat ≤ 57

/-- Python whitespace (`\s` on `str`, and the separators of `str.split()` /
`str.strip()`): space, TAB, LF, VT, FF, CR, the ASCII separator controls,
NEL (133) and NBSP (160). -/
def pyIsSpace (c : Char) : Bool :=
  c.toNat == 32 || c.toNat == 9 || c.toNat == 10 || c.toNat == 11 ||
  c.toNat == 12 || c.toNat == 13 || c.toNat == 28 || c.toNat == 29 ||
  c.toNat == 30 || c.toNat == 31 || c.toNat == 133 || c.toNat == 160

/-- Word characters for the regex `\b` boundary (`\w`): Latin and Cyrillic
letters (including Ё/ё), digits and underscore. -/
def pyIsWord (c : Char) : Bool :=
  lowerLatin c || upperLatin c || digitB c || c.toNat == 95 ||
  lowerCyr c || upperCyr c || c.toNat == 1105 || c.toNat == 1025

/-- `str.lower()` restricted to the source alphabets: `A`–`Z` (65–90) and
`А`–`Я` (1040–1071) map down by 32 code points, `Ё` maps to `ё`, everything
else is unchanged. -/
def pyLower (c : Char) : Char :=
  if 65 ≤ c.toNat ∧ c.toNat ≤ 90 then Char.ofNat (c.toNat + 32)
  else if 1040 ≤ c.toNat ∧ c.toNat ≤ 1071 then Char.ofNat (c.toNat + 32)
  else if c = 'Ё' then 'ё' else c

/-- `s.replace("ё", "е")` — the single-character replacement of line 13,
applied characterwise. -/
def yoSub (c : Char) : Char := if c = 'ё' then 'е' else c

/-- `s.replace("-", " ")` — the hyphen-to-space replacement, characterwise. -/
def hySub (c : Char) : Char := if c = '-' then ' ' else c

/-! ## `re.sub(r"\(.*?\)", " ", s)` — non-greedy parenthesis stripping

The Python scan is modelled as a single left-to-right pass: on `(` the
machine buffers characters; the shortest run up to the next `)` (`.` does not
cross a newline) is replaced by one space.  If the buffer hits a newline or
the end of input before a `)`, no alternative match can start inside the
buffered run (it contains no `)` before the same blocker), so the buffered
text is emitted literally. -/

def parenAux : Option (List Char) → List Char → List Char
  | none, [] => []
  | none, c :: rest =>
    if c = '(' then parenAux (some []) rest else c :: parenAux none rest
  | some buf, [] => '(' :: buf.reverse
  | some buf, c :: rest =>
    if c = ')' then ' ' :: parenAux none rest
    else if c = '\n' then ('(' :: buf.reverse) ++ '\n' :: parenAux none rest
    else parenAux (some (c :: buf)) rest

/-- `re.sub(r"\(.*?\)", " ", s)`. -/
def parenSub (l : List Char) : List Char := parenAux none l

/-! ## Character-class substitution `re.sub(r"[^...]+", " ", s)`

A maximal run of characters outside the class is replaced by a single space;
the boolean flag records whether the previous character was part of such a
run. -/

def classSubP (keep : Char → Bool) : Bool → List Char → List Char
  | _, [] => []
  | inBad, c :: rest =>
    if keep c then c :: classSubP keep false rest
    else if inBad then classSubP keep true rest
    else ' ' :: classSubP keep true rest

/-- The class kept by `normalize_text`'s filter `[^a-zа-я0-9\s]+`. -/
def keepNorm (c : Char) : Bool :=
  lowerLatin c || lowerCyr c || digitB c || pyIsSpace c

/-- The class kept by the extractor's filter `[^a-zа-я0-9\s\-]+` (also keeps
hyphens). -/
def keepExt (c : Char) : Bool := keepNorm c || c.toNat == 45

/-! ## `" ".join(s.split())` — whitespace collapsing -/

/-- Split at whitespace characters keeping empty groups (each whitespace
character ends a group). `splitSp l` is never empty. -/
def splitSp : List Char → List (List Char)
  | [] => [[]]
  | c :: rest =>
    if pyIsSpace c then [] :: splitSp rest
    else
      match splitSp rest with
      | [] => [[c]]
      | g :: gs => (c :: g) :: gs

/-- `s.split()`: the maximal nonempty runs of non-whitespace characters. -/
def words (l : List Char) : List (List Char) :=
  (splitSp l).filter (fun w => !w.isEmpty)

/-- `" ".join ws`. -/
def joinSp : List (List Char) → List Char
  | [] => []
  | [w] => w
  | w :: w' :: ws => w ++ ' ' :: joinSp (w' :: ws)

/-- `" ".join(s.split())`. -/
def collapse (l : List Char) : List Char := joinSp (words l)

/-! ## `normalize_text` (lines 11–21 of `product_parser.py`) -/

/-- The normalizer on character lists: lowercase, fold `ё` to `е`, strip
parenthesized runs, hyphen to space, drop characters outside
`[a-zа-я0-9\s]`, collapse whitespace. -/
def normalizeL (l : List Char) : List Char :=
  collapse (classSubP keepNorm false
    (List.map hySub (parenSub (List.map yoSub (List.map pyLower l)))))

/-- `normalize_text(s)` of the source. -/
def normalize_text (s : String) : String := String.mk (normalizeL s.data)

/-! ## Data model

`Product` keeps the catalog fields the engine reads (`models.Product` also
carries ids, category, SKU and flags that the claims do not touch).
`ParsedLine` is the dictionary returned by `parse_product_line`. -/

structure Product where
  brand : String
  line : Option String
  flavor : String
  norm_flavor : String
deriving DecidableEq

structure ParsedLine where
  brand : String
  line : Option String
  flavor : String
deriving DecidableEq

/-! ## `parse_product_line` (lines 27–62)

The source first strips the line and rejects it when it has no `"`, then
anchors `re.match(r'"([^"]+)"\s*(.*)', line)`: the line must *start* with a
quote, group 1 is the nonempty run up to the next quote, and group 2 is what
`\s*(.*)` captures — the remainder after greedily skipping whitespace,
truncated at the first newline (`.` does not match `\n`). -/

/-- `str.strip()`: drop Python whitespace from both ends. -/
def pyStrip (l : List Char) : List Char :=
  ((l.dropWhile pyIsSpace).reverse.dropWhile pyIsSpace).reverse

/-- Split at the first `"`: `breakAtQuote l = some (a, b)` iff `l = a ++ '"' :: b`
with `'"' ∉ a`. -/
def breakAtQuote : List Char → Option (List Char × List Char)
  | [] => none
  | c :: r =>
    if c = '"' then some ([], r)
    else
      match breakAtQuote r with
      | none => none
      | some (a, b) => some (c :: a, b)

/-- Group 2 of the regex: after the closing quote, `\s*` greedily skips
whitespace and `(.*)` captures up to the first newline or the end. -/
def g2Of (rest0 : List Char) : List Char :=
  (rest0.dropWhile pyIsSpace).takeWhile (fun c => !(c == '\n'))

/-- `re.match(r'"([^"]+)"\s*(.*)', l)` returning the two groups. -/
def regexBrandRest : List Char → Option (List Char × List Char)
  | '"' :: t =>
    match breakAtQuote t with
    | none => none
    | some (b, rest0) => if b.isEmpty then none else some (b, g2Of rest0)
  | _ => none

/-- The line-marker scan (lines 49–53): if `rest` starts with a marker plus a
space, record the marker and strip the remainder; the markers are tried in
the source's order. -/
def markerSplit (rest : List Char) : Option (List Char) × List Char :=
  if ("Легкая ".data).isPrefixOf rest then
    (some ("Легкая".data), pyStrip (rest.drop ("Легкая".data).length))
  else if ("Крепкая ".data).isPrefixOf rest then
    (some ("Крепкая".data), pyStrip (rest.drop ("Крепкая".data).length))
  else (none, rest)

/-- Lines 45–62: marker extraction, the empty-flavor rejection, and the
construction of the result from `brand` and `rest`. -/
def finishParse (brand rest : List Char) : Option ParsedLine :=
  let ms := markerSplit rest
  if ms.2.isEmpty then none
  else some ⟨String.mk brand, ms.1.map String.mk, String.mk ms.2⟩

/-- `parse_product_line(line)` of the source. -/
def parse_product_line (line : String) : Option ParsedLine :=
  let l := pyStrip line.data
  if '"' ∈ l then
    match regexBrandRest l with
    | none => none
    | some (g1, g2) => finishParse (pyStrip g1) (pyStrip g2)
  else none

/-! ## `build_canonical_name` (lines 77–80)

`weight` has Python type `int | None`; `if weight:` is true exactly for a
present, nonzero integer. -/

def build_canonical_name (canonical_sku : String) (weight : Option Int) : String :=
  match weight with
  | some w => if w ≠ 0 then canonical_sku ++ " " ++ toString w ++ "г." else canonical_sku
  | none => canonical_sku

/-! ## `extract_weight` (lines 86–88)

`re.search(r"(\d+)\s*(г|гр|g)", raw.lower())`: the first position where a
digit run, optional whitespace and a unit letter follow each other; there is
no `\b` here, so the alternative `г` already succeeds whenever the next
character is `г` (making the `гр` alternative irrelevant).  A failed digit
run cannot match at any of its inner positions either (the suffix after the
run is the same), so scanning position by position is faithful. -/

/-- Value of a digit run. -/
def digitsVal (l : List Char) : Nat := l.foldl (fun a c => 10 * a + (c.toNat - 48)) 0

/-- Head of the list is a weight unit letter (`г` or `g`) of the
`extract_weight` regex. -/
def unitHead : List Char → Bool
  | c :: _ => c.toNat == 1075 || c.toNat == 103
  | [] => false

def searchWeightL : List Char → Option Nat
  | [] => none
  | c :: rest =>
    if digitB c then
      if unitHead (((c :: rest).dropWhile digitB).dropWhile pyIsSpace) then
        some (digitsVal ((c :: rest).takeWhile digitB))
      else searchWeightL rest
    else searchWeightL rest

/-- `extract_weight(raw)` of the source. -/
def extract_weight (raw : String) : Option Nat :=
  searchWeightL (raw.data.map pyLower)

/-! ## `extract_flavor_from_raw` (lines 91–131)

The fuel-indexed scanners below model left-to-right `re.sub`/`str.replace`
passes whose steps consume more than one character; the fuel is set to the
length of the input, which every pass below strictly exceeds per step, so the
`0` clauses are unreachable on the wrapped calls. -/

/-- Right-hand `\b`: the next character must not be a word character. -/
def bnd : List Char → Bool
  | [] => true
  | c :: _ => !pyIsWord c

/-- Match `(г|гр|g)\b` at the head of the list (the source's alternation
order), returning the suffix after the unit. -/
def unitAfter : List Char → Option (List Char)
  | [] => none
  | c :: rest =>
    if c.toNat == 1075 then
      if bnd rest then some rest
      else
        match rest with
        | c2 :: r2 => if c2.toNat == 1088 && bnd r2 then some r2 else none
        | [] => none
    else if c.toNat == 103 then (if bnd rest then some rest else none)
    else none

/-- Attempt `\d+\s*(г|гр|g)\b` at the head: a nonempty digit run, any
whitespace, then a unit with a word boundary.  Digit, whitespace and unit
characters are pairwise disjoint, so the regex engine never backtracks into
shorter runs. -/
def matchWeightAt (l : List Char) : Option (List Char) :=
  if (l.takeWhile digitB).isEmpty then none
  else unitAfter ((l.dropWhile digitB).dropWhile pyIsSpace)

/-- `re.sub(r"\d+\s*(г|гр|g)\b", " ", t)`: a failed attempt at the start of a
digit run also fails at every position inside the run, so the scan moves one
character on failure. -/
def weightSubF : Nat → List Char → List Char
  | _, [] => []
  | 0, l => l
  | f + 1, c :: rest =>
    match matchWeightAt (c :: rest) with
    | some r => ' ' :: weightSubF f r
    | none => c :: weightSubF f rest

def weightSub (l : List Char) : List Char := weightSubF l.length l

/-- `text.replace(pat, " ")` for a nonempty pattern (an empty pattern is
treated as matching nowhere; the source only replaces nonempty phrases). -/
def replaceAllF (pat : List Char) : Nat → List Char → List Char
  | _, [] => []
  | 0, l => l
  | f + 1, c :: rest =>
    if pat.isPrefixOf (c :: rest) && !pat.isEmpty then
      ' ' :: replaceAllF pat f ((c :: rest).drop pat.length)
    else c :: replaceAllF pat f rest

def replaceAll (pat l : List Char) : List Char := replaceAllF pat l.length l

/-- First pattern of `pats` (the regex alternation order) that is a prefix of
`l` and is followed by a non-word character or the end (`\b` on the right);
returns the suffix after it. -/
def tryPats (pats : List (List Char)) (l : List Char) : Option (List Char) :=
  match pats with
  | [] => none
  | p :: ps =>
    if p.isPrefixOf l && bnd (l.drop p.length) then some (l.drop p.length)
    else tryPats ps l

/-- `re.sub(r"\b(pat₁|pat₂|…)\b", " ", t)` for patterns that start and end in
word characters (as the source's marker phrases do): a match may start only
where the previous character is not a word character (`prev = false`), and
after a replacement the previous character is the last pattern character, a
word character. -/
def wbSubF (pats : List (List Char)) : Nat → Bool → List Char → List Char
  | _, _, [] => []
  | 0, _, l => l
  | f + 1, prev, c :: rest =>
    match (if prev then none else tryPats pats (c :: rest)) with
    | some suffix => ' ' :: wbSubF pats f true suffix
    | none => c :: wbSubF pats f (pyIsWord c) rest

def wbSub (pats : List (List Char)) (l : List Char) : List Char :=
  wbSubF pats l.length false l

/-- `text.find(pat)` followed by `text[idx + len(pat):]`: the suffix after
the first occurrence of `pat`, if any. -/
def cutAfter (pat : List Char) : List Char → Option (List Char)
  | [] => if pat.isEmpty then some [] else none
  | c :: r =>
    if pat.isPrefixOf (c :: r) then some ((c :: r).drop pat.length)
    else cutAfter pat r

/-- Lines 117–122: the first brand (in the sorted order) that occurs in the
text cuts everything up to and including its occurrence; if none occurs the
text is unchanged. -/
def brandCut : List (List Char) → List Char → List Char
  | [], t => t
  | b :: bs, t =>
    match cutAfter b t with
    | some t' => t'
    | none => brandCut bs t

/-- Stable insertion into a list sorted by length descending (`sorted(...,
key=len, reverse=True)` keeps the input order of equal-length elements). -/
def insertLD (x : List Char) : List (List Char) → List (List Char)
  | [] => [x]
  | y :: ys => if x.length < y.length then y :: insertLD x ys else x :: y :: ys

def sortLenDesc : List (List Char) → List (List Char)
  | [] => []
  | x :: xs => insertLD x (sortLenDesc xs)

/-- First-occurrence deduplication (insertion order of `set`/`dict` keys is
modelled as first occurrence; Python's `set` order is unspecified, which is
why the extractor takes the enumeration as a parameter). -/
def dedupL : List (List Char) → List (List Char)
  | [] => []
  | b :: bs => b :: (dedupL bs).filter (fun x => !(x == b))

/-- The distinct lowercased nonempty brands of the catalog (line 116), in
first-occurrence order — one admissible enumeration of the Python set. -/
def brandSet (ps : List Product) : List (List Char) :=
  dedupL ((ps.filter (fun p => !(p.brand == ""))).map (fun p => p.brand.data.map pyLower))

/-- `extract_flavor_from_raw` with the brand enumeration `enum` as an
explicit parameter (lines 91–131 of the source, in source order): lowercase,
strip parentheses, strip weights, strip category phrases, strip line-marker
phrases, cut at the brand, filter the character class, hyphen to space,
collapse whitespace. -/
def extract_flavor_core (enum : List (List Char)) (raw : String) : String :=
  let t0 := raw.data.map pyLower
  let t1 := parenSub t0
  let t2 := weightSub t1
  let t3 := replaceAll ("табак для кальяна -".data) t2
  let t4 := replaceAll ("табак для кальяна".data) t3
  let t5 := wbSub [("легкая линейка".data), ("крепкая линейка".data)] t4
  let t6 := wbSub [("легкая".data), ("крепкая".data)] t5
  let t7 := brandCut (sortLenDesc enum) t6
  let t8 := classSubP keepExt false t7
  let t9 := t8.map hySub
  String.mk (collapse t9)

/-- `extract_flavor_from_raw(raw, products)` with the canonical enumeration. -/
def extract_flavor_from_raw (raw : String) (products : List Product) : String :=
  extract_flavor_core (brandSet products) raw

/-! ## `match_product_by_flavor` (lines 139–177)

The rapidfuzz scorer is a parameter; `process.extractOne` keeps the first
choice attaining the maximal score (later choices replace the best only on a
strictly greater score).  `flavor_map = {p.flavor: p}` iterates keys in
first-occurrence order and maps each key to the *last* product bearing that
flavor; `int(score)` truncates toward zero. -/

/-- Keys of `flavor_map` in iteration order. -/
def dedupS : List String → List String
  | [] => []
  | k :: ks => k :: (dedupS ks).filter (fun x => !(x == k))

def dedupFlavors (ps : List Product) : List String := dedupS (ps.map (·.flavor))

/-- `flavor_map[k]`: the last product with flavor `k` (dict overwrite). -/
def dictLookup (ps : List Product) (k : String) : Option Product :=
  ps.reverse.find? (fun p => p.flavor == k)

def extractOneAux (scorer : String → String → ℚ) (q : String) :
    String × ℚ → List String → String × ℚ
  | best, [] => best
  | (bk, bs), k :: ks =>
    if bs < scorer q k then extractOneAux scorer q (k, scorer q k) ks
    else extractOneAux scorer q (bk, bs) ks

/-- `process.extractOne(q, keys, scorer)` as (choice, score). -/
def extractOne (scorer : String → String → ℚ) (q : String) :
    List String → Option (String × ℚ)
  | [] => none
  | k :: ks => some (extractOneAux scorer q (k, scorer q k) ks)

/-- Python `int()` on a rational: truncation toward zero. -/
def pyInt (q : ℚ) : ℤ := if 0 ≤ q then ⌊q⌋ else ⌈q⌉

/-- The flavor query of lines 149–151: the extractor's result, or the raw
label itself when that result is empty. -/
def flavorQuery (enum : List (List Char)) (raw : String) : String :=
  let f := extract_flavor_core enum raw
  if f = "" then raw else f

/-- The normalized flavor query of line 153. -/
def normQuery (enum : List (List Char)) (raw : String) : String :=
  normalize_text (flavorQuery enum raw)

/-- `match_product_by_flavor` with scorer and brand enumeration as
parameters.  The dict access `flavor_map[best]` (total in the source because
`best` is one of the keys) is modelled by the optional `dictLookup`. -/
def match_core (scorer : String → String → ℚ) (enum : List (List Char))
    (raw : String) (ps : List Product) : Option Product × ℤ :=
  if ps.isEmpty then (none, 0)
  else
    let q := flavorQuery enum raw
    let nq := normalize_text q
    match ps.find? (fun p => p.norm_flavor == nq) with
    | some p => (some p, 100)
    | none =>
      match extractOne scorer q (dedupFlavors ps) with
      | none => (none, 0)
      | some (bk, bs) =>
        if bs < 70 then (none, pyInt bs) else (dictLookup ps bk, pyInt bs)

/-- `match_product_by_flavor(raw_name, products)` with the canonical brand
enumeration. -/
def match_product_by_flavor (scorer : String → String → ℚ) (raw : String)
    (ps : List Product) : Option Product × ℤ :=
  match_core scorer (brandSet ps) raw ps

/-- A concrete catalog entry whose normalized flavor is the normalized query
for the raw label `"x"` (used in concrete instantiations). -/
def pX : Product := ⟨"b", none, "x", "x"⟩

/-- A concrete catalog entry that can only be matched by the fuzzy pass for
the raw label `"x"` (used in concrete instantiations). -/
def pA : Product := ⟨"b", none, "a", "zzz"⟩

/-- Code-point characterization of the characters `normalize_text` can emit:
lowercase Latin, lowercase Cyrillic (`а`–`я`), digits, or the space. -/
def outCharP (c : Char) : Prop :=
  (97 ≤ c.toNat ∧ c.toNat ≤ 122) ∨ (1072 ≤ c.toNat ∧ c.toNat ≤ 1103) ∨
  (48 ≤ c.toNat ∧ c.toNat ≤ 57) ∨ c.toNat = 32

/-! # Lemmas and claim theorems -/

lemma charOfNat_toNat {n : Nat} (h : n < 55296) : (Char.ofNat n).toNat = n := by
  unfold Char.ofNat
  rw [dif_pos (Or.inl h)]
  simp [Char.ofNatAux, Char.toNat, UInt32.toNat, UInt32.ofNatCore]

lemma pyLower_fixed {c : Char} (h : outCharP c) : pyLower c = c := by
  rcases h with h | h | h | h <;>
    · rw [pyLower, if_neg (by omega), if_neg (by omega), if_neg]
      intro he
      have h1 : ('Ё').toNat = 1025 := by decide
      rw [he, h1] at h
      omega

lemma yoSub_fixed {c : Char} (h : outCharP c) : yoSub c = c := by
  rw [yoSub, if_neg]
  intro he
  have h1 : ('ё').toNat = 1105 := by decide
  rw [he] at h
  rcases h with h | h | h | h <;> rw [h1] at h <;> omega

lemma hySub_fixed {c : Char} (h : outCharP c) : hySub c = c := by
  rw [hySub, if_neg]
  intro he
  have h1 : ('-').toNat = 45 := by decide
  rw [he] at h
  rcases h with h | h | h | h <;> rw [h1] at h <;> omega

lemma keepNorm_of_out {c : Char} (h : outCharP c) : keepNorm c = true := by
  rcases h with h | h | h | h <;>
    simp [keepNorm, lowerLatin, lowerCyr, digitB, pyIsSpace] <;> omega

lemma map_fixed {f : Char → Char} : ∀ {l : List Char}, (∀ c ∈ l, f c = c) → l.map f = l
  | [], _ => rfl
  | c :: rest, h => by
    rw [List.map_cons, h c (List.mem_cons_self c rest),
      map_fixed (fun x hx => h x (List.mem_cons_of_mem c hx))]

/-- `pyLower` neither produces nor destroys a character whose code point is
below 65 (both lowering branches emit code points of at least 97, and `Ё`
maps to `ё`). -/
lemma pyLower_eq_low {c d : Char} (hd : d.toNat < 65) : pyLower c = d ↔ c = d := by
  constructor
  · intro he
    by_cases h1 : 65 ≤ c.toNat ∧ c.toNat ≤ 90
    · rw [pyLower, if_pos h1] at he
      have h2 := congrArg Char.toNat he
      rw [charOfNat_toNat (by omega)] at h2
      omega
    · by_cases h2 : 1040 ≤ c.toNat ∧ c.toNat ≤ 1071
      · rw [pyLower, if_neg h1, if_pos h2] at he
        have h3 := congrArg Char.toNat he
        rw [charOfNat_toNat (by omega)] at h3
        omega
      · by_cases h3 : c = 'Ё'
        · rw [pyLower, if_neg h1, if_neg h2, if_pos h3] at he
          have h4 := congrArg Char.toNat he
          have h5 : ('ё').toNat = 1105 := by decide
          rw [h5] at h4
          omega
        · rwa [pyLower, if_neg h1, if_neg h2, if_neg h3] at he
  · intro he
    subst he
    rw [pyLower, if_neg (by omega), if_neg (by omega), if_neg]
    intro h
    rw [h] at hd
    revert hd
    decide

lemma yoSub_eq_low {c d : Char} (hd : d.toNat < 65) : yoSub c = d ↔ c = d := by
  constructor
  · intro he
    by_cases h1 : c = 'ё'
    · rw [yoSub, if_pos h1] at he
      have h2 := congrArg Char.toNat he
      have h3 : ('е').toNat = 1077 := by decide
      rw [h3] at h2
      omega
    · rwa [yoSub, if_neg h1] at he
  · intro he
    subst he
    rw [yoSub, if_neg]
    intro h
    rw [h] at hd
    revert hd
    decide

lemma map_pyLower_not_mem {l : List Char} {d : Char} (hd : d.toNat < 65)
    (h : d ∉ l) : d ∉ l.map pyLower := by
  intro hm
  rcases List.mem_map.mp hm with ⟨c, hc, hcd⟩
  exact h ((pyLower_eq_low hd).mp hcd ▸ hc)

lemma map_yoSub_not_mem {l : List Char} {d : Char} (hd : d.toNat < 65)
    (h : d ∉ l) : d ∉ l.map yoSub := by
  intro hm
  rcases List.mem_map.mp hm with ⟨c, hc, hcd⟩
  exact h ((yoSub_eq_low hd).mp hcd ▸ hc)

/-! ## C7: `build_canonical_name` -/

/-- C7, counterexample: the claim says the weight suffix is appended exactly
when the weight is present *and positive*, so it demands
`buildName("X", -1) = "X"`; the source's Python truthiness test `if weight:`
is true for every nonzero integer and appends the suffix. -/
theorem C7_negative_weight_cex :
    build_canonical_name "X" (some (-1)) = "X -1г." ∧ "X -1г." ≠ "X" := by
  constructor
  · decide
  · decide

/-- C7 (amended): `build_canonical_name` appends the weight suffix exactly
when the weight is present and *nonzero* (Python truthiness of `int | None`),
and otherwise returns the SKU unchanged; in particular
`buildName("X", 120) = "X 120г."`, `buildName("X", None) = "X"` and
`buildName("X", 0) = "X"`. -/
theorem C7_name_suffix :
    (∀ sku, build_canonical_name sku none = sku) ∧
    (∀ sku, build_canonical_name sku (some 0) = sku) ∧
    (∀ sku w, w ≠ 0 →
      build_canonical_name sku (some w) = sku ++ " " ++ toString w ++ "г.") ∧
    build_canonical_name "X" (some 120) = "X 120г." := by
  refine ⟨fun sku => rfl, fun sku => rfl, fun sku w hw => ?_, by decide⟩
  rw [build_canonical_name, if_pos hw]

/-- C7, witness for the amended claim at a concrete nonzero weight. -/
theorem C7_name_suffix_wit : build_canonical_name "Y" (some 5) = "Y 5г." := by
  rw [C7_name_suffix.2.2.1 "Y" 5 (by decide)]
  decide

/-! ## Whitespace collapsing: structure of `splitSp`, `words`, `joinSp` -/

lemma splitSp_ne_nil : ∀ l : List Char, splitSp l ≠ []
  | [] => by simp [splitSp]
  | c :: rest => by
    cases h : pyIsSpace c with
    | true => simp [splitSp, h]
    | false =>
      cases hl : splitSp rest with
      | nil => simp [splitSp, h, hl]
      | cons g gs => simp [splitSp, h, hl]

lemma mem_of_mem_splitSp {c : Char} :
    ∀ {l w : List Char}, w ∈ splitSp l → c ∈ w → c ∈ l ∧ pyIsSpace c = false := by
  intro l
  induction l with
  | nil =>
    intro w hw hc
    simp [splitSp] at hw
    subst hw
    simp at hc
  | cons a rest ih =>
    intro w hw hc
    cases h : pyIsSpace a with
    | true =>
      simp [splitSp, h] at hw
      rcases hw with rfl | hw
      · simp at hc
      · have h2 := ih hw hc
        exact ⟨List.mem_cons_of_mem _ h2.1, h2.2⟩
    | false =>
      cases hl : splitSp rest with
      | nil => exact absurd hl (splitSp_ne_nil rest)
      | cons g gs =>
        simp [splitSp, h, hl] at hw
        rcases hw with rfl | hw
        · rcases List.mem_cons.mp hc with rfl | hc'
          · exact ⟨List.mem_cons_self _ _, h⟩
          · have hg : g ∈ splitSp rest := by
              rw [hl]
              exact List.mem_cons_self _ _
            have h2 := ih hg hc'
            exact ⟨List.mem_cons_of_mem _ h2.1, h2.2⟩
        · have hw' : w ∈ splitSp rest := by
            rw [hl]
            exact List.mem_cons_of_mem _ hw
          have h2 := ih hw' hc
          exact ⟨List.mem_cons_of_mem _ h2.1, h2.2⟩

lemma words_good {l w : List Char} (hw : w ∈ words l) :
    w ≠ [] ∧ ∀ c ∈ w, pyIsSpace c = false := by
  have h1 := List.mem_of_mem_filter hw
  have h2 := List.of_mem_filter hw
  refine ⟨?_, fun c hc => (mem_of_mem_splitSp h1 hc).2⟩
  intro he
  subst he
  simp at h2

lemma splitSp_append : ∀ {w : List Char}, (∀ c ∈ w, pyIsSpace c = false) →
    ∀ {l g : List Char} {gs}, splitSp l = g :: gs → splitSp (w ++ l) = (w ++ g) :: gs := by
  intro w
  induction w with
  | nil =>
    intro _ l g gs hl
    simpa using hl
  | cons c w ih =>
    intro hw l g gs hl
    have hc : pyIsSpace c = false := hw c (List.mem_cons_self c w)
    have ih' := ih (fun x hx => hw x (List.mem_cons_of_mem c hx)) hl
    simp [splitSp, hc, ih']

lemma words_joinSp : ∀ {ws : List (List Char)},
    (∀ w ∈ ws, w ≠ [] ∧ ∀ c ∈ w, pyIsSpace c = false) → words (joinSp ws) = ws
  | [], _ => by simp [joinSp, words, splitSp]
  | [w], h => by
    obtain ⟨hne, hns⟩ := h w (List.mem_cons_self _ _)
    have h1 : splitSp (w ++ []) = (w ++ []) :: ([] : List (List Char)) :=
      splitSp_append hns (by simp [splitSp])
    rw [List.append_nil] at h1
    have hie : w.isEmpty = false := by
      cases w with
      | nil => exact absurd rfl hne
      | cons x xs => rfl
    simp [joinSp, words, h1, hie]
  | w :: w' :: ws, h => by
    obtain ⟨hne, hns⟩ := h w (List.mem_cons_self _ _)
    have hrec := @words_joinSp (w' :: ws) (fun x hx => h x (List.mem_cons_of_mem _ hx))
    cases hJ : splitSp (joinSp (w' :: ws)) with
    | nil => exact absurd hJ (splitSp_ne_nil _)
    | cons g gs =>
      have hsp : pyIsSpace ' ' = true := by decide
      have h2 : splitSp (' ' :: joinSp (w' :: ws)) = [] :: g :: gs := by
        simp [splitSp, hsp, hJ]
      have h3 : splitSp (w ++ ' ' :: joinSp (w' :: ws)) = (w ++ []) :: g :: gs :=
        splitSp_append hns h2
      rw [List.append_nil] at h3
      have hie : w.isEmpty = false := by
        cases w with
        | nil => exact absurd rfl hne
        | cons x xs => rfl
      have h4 : (g :: gs).filter (fun x => !x.isEmpty) = w' :: ws := by
        rw [words] at hrec
        rw [hJ] at hrec
        exact hrec
      show words (w ++ ' ' :: joinSp (w' :: ws)) = w :: w' :: ws
      rw [words, h3]
      simp [List.filter_cons, hie, h4]

lemma mem_joinSp {c : Char} :
    ∀ {ws : List (List Char)}, c ∈ joinSp ws → c = ' ' ∨ ∃ w ∈ ws, c ∈ w
  | [], h => by simp [joinSp] at h
  | [w], h => Or.inr ⟨w, List.mem_cons_self _ _, by simpa [joinSp] using h⟩
  | w :: w' :: ws, h => by
    replace h : c ∈ w ++ ' ' :: joinSp (w' :: ws) := h
    rcases List.mem_append.mp h with h | h
    · exact Or.inr ⟨w, List.mem_cons_self _ _, h⟩
    · rcases List.mem_cons.mp h with rfl | h
      · exact Or.inl rfl
      · rcases mem_joinSp h with h | ⟨x, hx, hcx⟩
        · exact Or.inl h
        · exact Or.inr ⟨x, List.mem_cons_of_mem _ hx, hcx⟩

lemma mem_classSubP {keep : Char → Bool} {c : Char} {l : List Char} :
    ∀ {b : Bool}, c ∈ classSubP keep b l → c = ' ' ∨ (keep c = true ∧ c ∈ l) := by
  induction l with
  | nil =>
    intro b h
    simp [classSubP] at h
  | cons a rest ih =>
    intro b h
    cases hk : keep a with
    | true =>
      simp [classSubP, hk] at h
      rcases h with rfl | h
      · exact Or.inr ⟨hk, List.mem_cons_self _ _⟩
      · rcases ih h with h | ⟨h1, h2⟩
        · exact Or.inl h
        · exact Or.inr ⟨h1, List.mem_cons_of_mem _ h2⟩
    | false =>
      cases b with
      | true =>
        simp [classSubP, hk] at h
        rcases ih h with h | ⟨h1, h2⟩
        · exact Or.inl h
        · exact Or.inr ⟨h1, List.mem_cons_of_mem _ h2⟩
      | false =>
        simp [classSubP, hk] at h
        rcases h with rfl | h
        · exact Or.inl rfl
        · rcases ih h with h | ⟨h1, h2⟩
          · exact Or.inl h
          · exact Or.inr ⟨h1, List.mem_cons_of_mem _ h2⟩

lemma classSubP_id {keep : Char → Bool} :
    ∀ {l : List Char}, (∀ c ∈ l, keep c = true) → ∀ b, classSubP keep b l = l
  | [], _, b => rfl
  | a :: rest, h, b => by
    have ha : keep a = true := h a (List.mem_cons_self _ _)
    simp [classSubP, ha,
      classSubP_id (fun c hc => h c (List.mem_cons_of_mem _ hc)) false]

lemma parenAux_no_paren : ∀ {l : List Char}, '(' ∉ l → parenAux none l = l
  | [], _ => rfl
  | c :: rest, h => by
    have hc : ¬ c = '(' := fun he => h (he ▸ List.mem_cons_self _ _)
    have h' : '(' ∉ rest := fun hm => h (List.mem_cons_of_mem _ hm)
    simp [parenAux, hc, parenAux_no_paren h']

/-! ## C8: idempotence of `normalize_text` -/

lemma normalizeL_chars (l : List Char) : ∀ c ∈ normalizeL l, outCharP c := by
  intro c hc
  rw [normalizeL, collapse] at hc
  rcases mem_joinSp hc with rfl | ⟨w, hw, hcw⟩
  · right; right; right; decide
  · have h2 := List.mem_of_mem_filter hw
    have h3 := mem_of_mem_splitSp h2 hcw
    rcases mem_classSubP h3.1 with rfl | ⟨hk, _⟩
    · right; right; right; decide
    · have h4 := h3.2
      rw [outCharP]
      revert hk h4
      simp [keepNorm, lowerLatin, lowerCyr, digitB, pyIsSpace]
      omega

lemma collapse_idem (m : List Char) : collapse (collapse m) = collapse m := by
  show joinSp (words (joinSp (words m))) = joinSp (words m)
  rw [words_joinSp (fun w hw => words_good hw)]

lemma normalizeL_fix {o : List Char} (h : ∀ c ∈ o, outCharP c)
    (hc : collapse o = o) : normalizeL o = o := by
  have hp : '(' ∉ o := by
    intro hm
    have h1 := h _ hm
    have h40 : ('(').toNat = 40 := by decide
    rcases h1 with h' | h' | h' | h' <;> rw [h40] at h' <;> omega
  rw [normalizeL, map_fixed (fun c hc' => pyLower_fixed (h c hc')),
    map_fixed (fun c hc' => yoSub_fixed (h c hc'))]
  show collapse (classSubP keepNorm false (List.map hySub (parenAux none o))) = o
  rw [parenAux_no_paren hp, map_fixed (fun c hc' => hySub_fixed (h c hc')),
    classSubP_id (fun c hc' => keepNorm_of_out (h c hc')) false, hc]

lemma normalizeL_idem (l : List Char) : normalizeL (normalizeL l) = normalizeL l :=
  normalizeL_fix (normalizeL_chars l) (collapse_idem _)

/-- C8: `normalize_text` is idempotent — normalizing an already normalized
string returns it unchanged, for every input string. -/
theorem C8_normalize_idempotent (s : String) :
    normalize_text (normalize_text s) = normalize_text s :=
  congrArg String.mk (normalizeL_idem s.data)

/-! ## C4: parenthesized groups are replaced by a space, not deleted -/

lemma str_data_append (a b : String) : (a ++ b).data = a.data ++ b.data := by
  cases a
  cases b
  rfl

lemma parenAux_skip {a : List Char} (ha : '(' ∉ a) :
    ∀ l, parenAux none (a ++ l) = a ++ parenAux none l := by
  induction a with
  | nil => intro l; rfl
  | cons c a ih =>
    intro l
    have hc : ¬ c = '(' := fun he => ha (he ▸ List.mem_cons_self _ _)
    have ha' : '(' ∉ a := fun hm => ha (List.mem_cons_of_mem _ hm)
    simp [parenAux, hc, ih ha' l]

lemma parenAux_close {b : List Char} (hb1 : ')' ∉ b) (hb2 : '\n' ∉ b) :
    ∀ (buf tl : List Char), parenAux (some buf) (b ++ ')' :: tl) = ' ' :: parenAux none tl := by
  induction b with
  | nil => intro buf tl; simp [parenAux]
  | cons x b ih =>
    intro buf tl
    have hx1 : ¬ x = ')' := fun he => hb1 (he ▸ List.mem_cons_self _ _)
    have hx2 : ¬ x = '\n' := fun he => hb2 (he ▸ List.mem_cons_self _ _)
    have hb1' : ')' ∉ b := fun hm => hb1 (List.mem_cons_of_mem _ hm)
    have hb2' : '\n' ∉ b := fun hm => hb2 (List.mem_cons_of_mem _ hm)
    simp [parenAux, hx1, hx2, ih hb1' hb2' (x :: buf) tl]

/-- C4, counterexample: with `a = "ab"`, `b = "x"` (no parenthesis in `b`)
and `c = "cd"`, the claim demands `normalize("ab(x)cd") = normalize("abcd")`;
the source replaces the parenthesized group by a *space*
(`re.sub(r"\(.*?\)", " ", s)`), giving `"ab cd" ≠ "abcd"`. -/
theorem C4_deletion_cex :
    ('(' ∉ "x".data ∧ ')' ∉ "x".data) ∧
    normalize_text ("ab" ++ "(" ++ "x" ++ ")" ++ "cd") ≠ normalize_text ("ab" ++ "cd") :=
  ⟨by decide, by decide⟩

/-- C4 (amended): `normalize` replaces each parenthesized substring together
with its parentheses by a single space (substitution, not deletion): for all
strings `a` without `(`, and `b` without `)` and without newlines,
`normalize(a ++ "(" ++ b ++ ")" ++ c) = normalize(a ++ " " ++ c)`. -/
theorem C4_paren_space (a b c : String) (ha : '(' ∉ a.data)
    (hb2 : ')' ∉ b.data) (hb3 : '\n' ∉ b.data) :
    normalize_text (a ++ "(" ++ b ++ ")" ++ c) = normalize_text (a ++ " " ++ c) := by
  have h40 : ('(').toNat = 40 := by decide
  have h41 : (')').toNat = 41 := by decide
  have h10 : ('\n').toNat = 10 := by decide
  have hpl : pyLower '(' = '(' := by decide
  have hpr : pyLower ')' = ')' := by decide
  have hps : pyLower ' ' = ' ' := by decide
  have hyl : yoSub '(' = '(' := by decide
  have hyr : yoSub ')' = ')' := by decide
  have hys : yoSub ' ' = ' ' := by decide
  -- mapped pieces
  set A := List.map yoSub (List.map pyLower a.data) with hA
  set B := List.map yoSub (List.map pyLower b.data) with hB
  set C := List.map yoSub (List.map pyLower c.data) with hC
  have hAp : '(' ∉ A := map_yoSub_not_mem (by rw [h40]; omega)
    (map_pyLower_not_mem (by rw [h40]; omega) ha)
  have hB1 : ')' ∉ B := map_yoSub_not_mem (by rw [h41]; omega)
    (map_pyLower_not_mem (by rw [h41]; omega) hb2)
  have hB2 : '\n' ∉ B := map_yoSub_not_mem (by rw [h10]; omega)
    (map_pyLower_not_mem (by rw [h10]; omega) hb3)
  have e1 : List.map yoSub (List.map pyLower ((a ++ "(" ++ b ++ ")" ++ c).data))
      = A ++ '(' :: (B ++ ')' :: C) := by
    simp [str_data_append, hA, hB, hC, hpl, hpr, hyl, hyr]
  have e2 : List.map yoSub (List.map pyLower ((a ++ " " ++ c).data))
      = A ++ ' ' :: C := by
    simp [str_data_append, hA, hC, hps, hys]
  have e3 : parenSub (A ++ '(' :: (B ++ ')' :: C)) = A ++ ' ' :: parenAux none C := by
    rw [parenSub, parenAux_skip hAp]
    have : parenAux none ('(' :: (B ++ ')' :: C)) = parenAux (some []) (B ++ ')' :: C) := by
      simp [parenAux]
    rw [this, parenAux_close hB1 hB2]
  have e4 : parenSub (A ++ ' ' :: C) = A ++ ' ' :: parenAux none C := by
    rw [parenSub, parenAux_skip hAp]
    have hsp : ¬ (' ' = '(') := by decide
    simp [parenAux, hsp]
  show String.mk (normalizeL _) = String.mk (normalizeL _)
  rw [normalizeL, normalizeL, e1, e2, e3, e4]

/-- C4, witness for the amended claim: the specification's own bracket
example, `normalize("Персик (свежий)") = normalize("Персик  ")`. -/
theorem C4_paren_space_wit :
    normalize_text ("Персик " ++ "(" ++ "свежий" ++ ")" ++ "") =
      normalize_text ("Персик " ++ " " ++ "") :=
  C4_paren_space "Персик " "свежий" "" (by decide) (by decide) (by decide)

/-! ## C5 and C6: the catalog line parser -/

lemma breakAtQuote_append {b : List Char} (hq : '"' ∉ b) :
    ∀ r, breakAtQuote (b ++ '"' :: r) = some (b, r) := by
  induction b with
  | nil => intro r; simp [breakAtQuote]
  | cons x b ih =>
    intro r
    have hx : ¬ x = '"' := fun he => hq (he ▸ List.mem_cons_self _ _)
    have hq' : '"' ∉ b := fun hm => hq (List.mem_cons_of_mem _ hm)
    simp [breakAtQuote, hx, ih hq' r]

/-- C5, counterexample: the claim says the first quoted run is extracted
"regardless of whether any text precedes the first quote", that the brand is
"exactly the substring between that first pair of quotes", and that `rest` is
the trimmed remainder after the closing quote.  The source anchors
`re.match`, so `x "Brand" Flavor` is rejected; it strips the quoted run, so
`" B " F` gives brand `B`, not ` B `; and `(.*)` stops at a newline, so
`"B" a⏎c` gives flavor `a`, not `a⏎c`. -/
theorem C5_anchored_cex :
    parse_product_line "x \"Brand\" Flavor" = none ∧
    parse_product_line "\" B \" F" = some ⟨"B", none, "F"⟩ ∧
    parse_product_line "\"B\" a\nc" = some ⟨"B", none, "a"⟩ :=
  ⟨by decide, by decide, by decide⟩

/-- C5 (amended): for every trimmed input that *starts* with a double quote,
followed by a nonempty quote-free run `b`, a closing quote and a remainder
`r`, `parse_product_line` takes the *trimmed* `b` as brand and, as `rest`,
the trimmed remainder obtained from `r` by skipping leading whitespace and
truncating at the first newline; the marker scan and the empty-flavor
rejection (`finishParse`) then run on exactly these two strings.  The parse
fails when the trimmed line does not start with a quote, when there is no
closing quote, when the quoted run is empty, or when the flavor is empty. -/
theorem C5_regex_extraction (b r : List Char) (hb : b ≠ []) (hq : '"' ∉ b)
    (ht : pyStrip ('"' :: b ++ '"' :: r) = '"' :: b ++ '"' :: r) :
    parse_product_line (String.mk ('"' :: b ++ '"' :: r)) =
      finishParse (pyStrip b) (pyStrip (g2Of r)) := by
  have hie : b.isEmpty = false := by
    cases b with
    | nil => exact absurd rfl hb
    | cons x xs => rfl
  have hr : regexBrandRest ('"' :: b ++ '"' :: r) = some (b, g2Of r) := by
    simp [regexBrandRest, breakAtQuote_append hq, hie]
  rw [List.cons_append] at ht hr
  simp [parse_product_line, ht, hr]

/-- C5, witness for the amended claim on `"Brand" Flavor`. -/
theorem C5_regex_extraction_wit :
    parse_product_line (String.mk ('"' :: "Brand".data ++ '"' :: " Flavor".data)) =
      finishParse (pyStrip "Brand".data) (pyStrip (g2Of " Flavor".data)) :=
  C5_regex_extraction "Brand".data " Flavor".data (by decide) (by decide) (by decide)

/-- C6: `parse_product_line` returns `none` (and never a partial result)
when the trimmed input has no double quote, when the quoted-brand regex does
not match, or when the flavor left after brand and optional marker extraction
is empty; in particular on `"no quotes here"` and on `"\"Brand\" "`. -/
theorem C6_parser_rejects :
    (∀ line : String, '"' ∉ pyStrip line.data → parse_product_line line = none) ∧
    (∀ line : String, regexBrandRest (pyStrip line.data) = none →
      parse_product_line line = none) ∧
    (∀ line : String, ∀ g1 g2, regexBrandRest (pyStrip line.data) = some (g1, g2) →
      (markerSplit (pyStrip g2)).2 = [] → parse_product_line line = none) ∧
    parse_product_line "no quotes here" = none ∧
    parse_product_line "\"Brand\" " = none := by
  refine ⟨?_, ?_, ?_, by decide, by decide⟩
  · intro line h
    simp only [parse_product_line]
    rw [if_neg h]
  · intro line h
    simp only [parse_product_line, h]
    split <;> rfl
  · intro line g1 g2 h hfl
    have hie : (markerSplit (pyStrip g2)).2.isEmpty = true := by
      rw [hfl]
      rfl
    simp only [parse_product_line, h, finishParse, hie]
    split <;> rfl

/-- C6, witness: the no-quote rejection applied at a concrete input. -/
theorem C6_parser_rejects_wit : parse_product_line "abc" = none :=
  C6_parser_rejects.1 "abc" (by decide)

/-! ## The fuzzy matcher: `extractOne`, `dictLookup`, `match_core` -/

lemma extractOneAux_eq (scorer : String → String → ℚ) (q : String) :
    ∀ (ks : List String) (bk : String) (bs : ℚ), bs = scorer q bk →
      (extractOneAux scorer q (bk, bs) ks).2 =
        scorer q (extractOneAux scorer q (bk, bs) ks).1
  | [], bk, bs, h => h
  | k :: ks, bk, bs, h => by
    by_cases hlt : bs < scorer q k
    · simp only [extractOneAux, if_pos hlt]
      exact extractOneAux_eq scorer q ks k (scorer q k) rfl
    · simp only [extractOneAux, if_neg hlt]
      exact extractOneAux_eq scorer q ks bk bs h

lemma extractOneAux_le (scorer : String → String → ℚ) (q : String) :
    ∀ (ks : List String) (bk : String) (bs : ℚ),
      bs ≤ (extractOneAux scorer q (bk, bs) ks).2 ∧
      ∀ k ∈ ks, scorer q k ≤ (extractOneAux scorer q (bk, bs) ks).2
  | [], bk, bs => by simp [extractOneAux]
  | k :: ks, bk, bs => by
    by_cases hlt : bs < scorer q k
    · have ih := extractOneAux_le scorer q ks k (scorer q k)
      simp only [extractOneAux, if_pos hlt]
      refine ⟨le_trans (le_of_lt hlt) ih.1, fun k' hk' => ?_⟩
      rcases List.mem_cons.mp hk' with rfl | hk'
      · exact ih.1
      · exact ih.2 k' hk'
    · have ih := extractOneAux_le scorer q ks bk bs
      simp only [extractOneAux, if_neg hlt]
      refine ⟨ih.1, fun k' hk' => ?_⟩
      rcases List.mem_cons.mp hk' with rfl | hk'
      · exact le_trans (not_lt.mp hlt) ih.1
      · exact ih.2 k' hk'

lemma extractOneAux_mem (scorer : String → String → ℚ) (q : String) :
    ∀ (ks : List String) (bk : String) (bs : ℚ),
      (extractOneAux scorer q (bk, bs) ks).1 = bk ∨
      (extractOneAux scorer q (bk, bs) ks).1 ∈ ks
  | [], bk, bs => Or.inl rfl
  | k :: ks, bk, bs => by
    by_cases hlt : bs < scorer q k
    · simp only [extractOneAux, if_pos hlt]
      rcases extractOneAux_mem scorer q ks k (scorer q k) with h | h
      · exact Or.inr (by rw [h]; exact List.mem_cons_self _ _)
      · exact Or.inr (List.mem_cons_of_mem _ h)
    · simp only [extractOneAux, if_neg hlt]
      rcases extractOneAux_mem scorer q ks bk bs with h | h
      · exact Or.inl h
      · exact Or.inr (List.mem_cons_of_mem _ h)

/-- `extractOne` returns a key of the list together with its score, and that
score dominates the score of every key. -/
lemma extractOne_spec {scorer : String → String → ℚ} {q : String}
    {ks : List String} {bk : String} {bs : ℚ}
    (h : extractOne scorer q ks = some (bk, bs)) :
    bk ∈ ks ∧ bs = scorer q bk ∧ ∀ k ∈ ks, scorer q k ≤ bs := by
  cases ks with
  | nil => simp [extractOne] at h
  | cons k0 ks' =>
    rw [extractOne] at h
    have he : extractOneAux scorer q (k0, scorer q k0) ks' = (bk, bs) :=
      Option.some.inj h
    have h1 := extractOneAux_eq scorer q ks' k0 (scorer q k0) rfl
    have h2 := extractOneAux_le scorer q ks' k0 (scorer q k0)
    have h3 := extractOneAux_mem scorer q ks' k0 (scorer q k0)
    rw [he] at h1 h2 h3
    refine ⟨?_, h1, fun k hk => ?_⟩
    · rcases h3 with h3 | h3
      · exact h3 ▸ List.mem_cons_self _ _
      · exact List.mem_cons_of_mem _ h3
    · rcases List.mem_cons.mp hk with rfl | hk
      · exact h2.1
      · exact h2.2 k hk

lemma mem_dedupS : ∀ {ks : List String} {x : String}, x ∈ dedupS ks → x ∈ ks
  | [], x, h => by simp [dedupS] at h
  | k :: ks, x, h => by
    rw [dedupS] at h
    rcases List.mem_cons.mp h with rfl | h
    · exact List.mem_cons_self _ _
    · exact List.mem_cons_of_mem _ (mem_dedupS (List.mem_of_mem_filter h))

lemma dedupFlavors_sub {ps : List Product} {x : String}
    (h : x ∈ dedupFlavors ps) : ∃ p ∈ ps, p.flavor = x := by
  rcases List.mem_map.mp (mem_dedupS h) with ⟨p, hp, he⟩
  exact ⟨p, hp, he⟩

lemma dictLookup_mem {ps : List Product} {k : String} {p : Product}
    (h : dictLookup ps k = some p) : p ∈ ps ∧ p.flavor = k := by
  have h1 := List.mem_of_find?_eq_some h
  have h2 := List.find?_some h
  exact ⟨List.mem_reverse.mp h1, by simpa using h2⟩

lemma dictLookup_isSome {ps : List Product} {k : String}
    (h : ∃ p ∈ ps, p.flavor = k) : ∃ p, dictLookup ps k = some p := by
  obtain ⟨p, hp, hf⟩ := h
  have h1 : (ps.reverse.find? (fun p => p.flavor == k)).isSome :=
    List.find?_isSome.mpr ⟨p, List.mem_reverse.mpr hp, by simp [hf]⟩
  exact Option.isSome_iff_exists.mp h1

/-- Unfolding of the matcher on a nonempty catalog. -/
lemma match_core_ne_nil {scorer : String → String → ℚ} {enum : List (List Char)}
    {raw : String} {ps : List Product} (h : ps ≠ []) :
    match_core scorer enum raw ps =
      match ps.find? (fun p => p.norm_flavor == normQuery enum raw) with
      | some p => (some p, 100)
      | none =>
        match extractOne scorer (flavorQuery enum raw) (dedupFlavors ps) with
        | none => (none, 0)
        | some (bk, bs) =>
          if bs < 70 then (none, pyInt bs) else (dictLookup ps bk, pyInt bs) := by
  have hie : ps.isEmpty = false := by
    cases ps with
    | nil => exact absurd rfl h
    | cons a l => rfl
  simp only [match_core, normQuery, hie, Bool.false_eq_true, if_false]

/-! ## C1: exact-pass precedence -/

/-- C1: for every scorer, every brand enumeration, every raw label and every
nonempty catalog, if some candidate's `norm_flavor` equals the normalized
flavor query, `match` returns the *first* such candidate (`List.find?`) with
score exactly 100; the result does not mention the scorer at all, so the
approximate pass is never consulted. -/
theorem C1_exact_first (scorer : String → String → ℚ) (enum : List (List Char))
    (raw : String) (ps : List Product) (hne : ps ≠ [])
    (p : Product) (hp : p ∈ ps) (hq : p.norm_flavor = normQuery enum raw) :
    match_core scorer enum raw ps =
      (ps.find? (fun x => x.norm_flavor == normQuery enum raw), 100) := by
  rw [match_core_ne_nil hne]
  have hs : (ps.find? (fun x => x.norm_flavor == normQuery enum raw)).isSome :=
    List.find?_isSome.mpr ⟨p, hp, by simp [hq]⟩
  obtain ⟨p', hp'⟩ := Option.isSome_iff_exists.mp hs
  rw [hp']

/-- C1, witness: a one-entry catalog whose normalized flavor equals the
normalized query of the raw label `"x"`, under a scorer that would give 0. -/
theorem C1_exact_first_wit :
    match_core (fun _ _ => 0) [] "x" [pX] =
      ([pX].find? (fun x => x.norm_flavor == normQuery [] "x"), 100) :=
  C1_exact_first (fun _ _ => 0) [] "x" [pX] (by decide) pX
    (List.mem_cons_self _ _) (by decide)

/-! ## C2: the approximate pass -/

/-- C2, counterexample: the claim says the returned score is the best score
"rounded to the nearest integer".  With a scorer valuing every candidate at
177/2 = 88.5 on a catalog with no exact match, the source's `int(score)`
truncates to 88, while the nearest integer is `round (177/2) = 89 ≠ 88`. -/
theorem C2_truncation_cex :
    match_core (fun _ _ => mkRat 177 2) [] "x" [pA] = (some pA, 88) ∧
    (88 : ℤ) ≠ round (mkRat 177 2) := by
  refine ⟨by decide, ?_⟩
  rw [Rat.mkRat_eq_div]
  norm_num [round_eq]

/-- C2 (amended): on a nonempty catalog with no exact normalized match, the
matcher computes the best fuzzy score `bs` over the distinct flavors (the
score of the first key attaining the maximum); if `bs < 70` it returns
`(none, bs truncated toward zero)`, and otherwise it returns an entry of the
catalog bearing the best-matching flavor together with the best score
truncated toward zero (Python `int()`), not rounded to nearest. -/
theorem C2_fuzzy_threshold (scorer : String → String → ℚ) (enum : List (List Char))
    (raw : String) (ps : List Product) (hne : ps ≠ [])
    (hnoex : ∀ p ∈ ps, p.norm_flavor ≠ normQuery enum raw)
    (bk : String) (bs : ℚ)
    (hbest : extractOne scorer (flavorQuery enum raw) (dedupFlavors ps) = some (bk, bs)) :
    (∀ k ∈ dedupFlavors ps, scorer (flavorQuery enum raw) k ≤ bs) ∧
    (bs < 70 → match_core scorer enum raw ps = (none, pyInt bs)) ∧
    (70 ≤ bs → ∃ p, p ∈ ps ∧ p.flavor = bk ∧
      match_core scorer enum raw ps = (some p, pyInt bs)) := by
  have hfind : ps.find? (fun p => p.norm_flavor == normQuery enum raw) = none := by
    rw [List.find?_eq_none]
    intro x hx
    simp [hnoex x hx]
  have hspec := extractOne_spec hbest
  refine ⟨hspec.2.2, fun hlt => ?_, fun hge => ?_⟩
  · rw [match_core_ne_nil hne, hfind, hbest]
    show (if bs < 70 then ((none : Option Product), pyInt bs)
      else (dictLookup ps bk, pyInt bs)) = (none, pyInt bs)
    rw [if_pos hlt]
  · obtain ⟨p, hp⟩ := dictLookup_isSome (dedupFlavors_sub hspec.1)
    have hmem := dictLookup_mem hp
    refine ⟨p, hmem.1, hmem.2, ?_⟩
    rw [match_core_ne_nil hne, hfind, hbest]
    show (if bs < 70 then ((none : Option Product), pyInt bs)
      else (dictLookup ps bk, pyInt bs)) = (some p, pyInt bs)
    rw [if_neg (not_lt.mpr hge), hp]

/-- C2, witness: a scorer valuing the single fuzzy candidate at 80 returns
that candidate with truncated score. -/
theorem C2_fuzzy_threshold_wit :
    ∃ p, p ∈ [pA] ∧ p.flavor = "a" ∧
      match_core (fun _ _ => (80 : ℚ)) [] "x" [pA] = (some p, pyInt 80) :=
  (C2_fuzzy_threshold (fun _ _ => 80) [] "x" [pA] (by decide) (by decide)
    "a" 80 (by decide)).2.2 (by norm_num)

/-! ## C10: the matcher's result contract -/

/-- C10: for every scorer bounded in [0, 100], every brand enumeration, every
raw label and every catalog, `match` returns a present entry iff the returned
score is at least 70; every returned entry is an element of the catalog; and
the returned score always lies in 0..100. -/
theorem C10_match_contract (scorer : String → String → ℚ) (enum : List (List Char))
    (raw : String) (ps : List Product)
    (hb : ∀ a b, 0 ≤ scorer a b ∧ scorer a b ≤ 100) :
    ((match_core scorer enum raw ps).1.isSome ↔ 70 ≤ (match_core scorer enum raw ps).2) ∧
    (∀ p, (match_core scorer enum raw ps).1 = some p → p ∈ ps) ∧
    0 ≤ (match_core scorer enum raw ps).2 ∧ (match_core scorer enum raw ps).2 ≤ 100 := by
  by_cases hne : ps = []
  · subst hne
    have he : match_core scorer enum raw ([] : List Product) = (none, 0) := rfl
    rw [he]
    exact ⟨by norm_num, fun p hp => by simp at hp, by norm_num, by norm_num⟩
  · cases hfind : ps.find? (fun p => p.norm_flavor == normQuery enum raw) with
    | some p =>
      have he : match_core scorer enum raw ps = (some p, 100) := by
        rw [match_core_ne_nil hne, hfind]
      rw [he]
      refine ⟨by norm_num, fun p' hp' => ?_, by norm_num, by norm_num⟩
      have hpp : p = p' := Option.some.inj hp'
      exact hpp ▸ List.mem_of_find?_eq_some hfind
    | none =>
      cases hext : extractOne scorer (flavorQuery enum raw) (dedupFlavors ps) with
      | none =>
        have he : match_core scorer enum raw ps = (none, 0) := by
          rw [match_core_ne_nil hne, hfind, hext]
        rw [he]
        exact ⟨by norm_num, fun p hp => by simp at hp, by norm_num, by norm_num⟩
      | some pair =>
        obtain ⟨bk, bs⟩ := pair
        have hspec := extractOne_spec hext
        have hbs0 : 0 ≤ bs := by
          rw [hspec.2.1]
          exact (hb _ _).1
        have hbs100 : bs ≤ 100 := by
          rw [hspec.2.1]
          exact (hb _ _).2
        have hpy : pyInt bs = ⌊bs⌋ := by rw [pyInt, if_pos hbs0]
        have hf0 : (0 : ℤ) ≤ ⌊bs⌋ := Int.floor_nonneg.mpr hbs0
        have hf100 : ⌊bs⌋ ≤ 100 := by
          have h1 : ⌊bs⌋ ≤ ⌊(100 : ℚ)⌋ := Int.floor_le_floor hbs100
          have h2 : ⌊(100 : ℚ)⌋ = 100 := by norm_num
          omega
        by_cases hlt : bs < 70
        · have he : match_core scorer enum raw ps = (none, pyInt bs) := by
            rw [match_core_ne_nil hne, hfind, hext]
            show (if bs < 70 then ((none : Option Product), pyInt bs)
              else (dictLookup ps bk, pyInt bs)) = (none, pyInt bs)
            rw [if_pos hlt]
          have hfl : ⌊bs⌋ < 70 := Int.floor_lt.mpr (by exact_mod_cast hlt)
          rw [he, hpy]
          refine ⟨?_, fun p' hp' => by simp at hp', by omega, by omega⟩
          constructor
          · intro h
            simp at h
          · intro h
            exact absurd h (by omega)
        · obtain ⟨p, hp⟩ := dictLookup_isSome (dedupFlavors_sub hspec.1)
          have he : match_core scorer enum raw ps = (some p, pyInt bs) := by
            rw [match_core_ne_nil hne, hfind, hext]
            show (if bs < 70 then ((none : Option Product), pyInt bs)
              else (dictLookup ps bk, pyInt bs)) = (some p, pyInt bs)
            rw [if_neg hlt, hp]
          have hf70 : (70 : ℤ) ≤ ⌊bs⌋ :=
            Int.le_floor.mpr (by exact_mod_cast not_lt.mp hlt)
          rw [he, hpy]
          refine ⟨iff_of_true rfl (by omega), fun p' hp' => ?_, by omega, by omega⟩
          have hpp : p = p' := Option.some.inj hp'
          exact hpp ▸ (dictLookup_mem hp).1

/-- C10, witness: a bounded scorer on a one-entry catalog; the theorem's
score-range conclusion at that instance. -/
theorem C10_match_contract_wit :
    0 ≤ (match_core (fun _ _ => (100 : ℚ)) [] "x" [pA]).2 ∧
    (match_core (fun _ _ => (100 : ℚ)) [] "x" [pA]).2 ≤ 100 :=
  (C10_match_contract (fun _ _ => 100) [] "x" [pA] (fun a b => by norm_num)).2.2

/-! ## C9: the brand-cut step depends on the set enumeration order -/

/-- C9: the source derives the candidate brands from a Python `set`
comprehension and sorts with `key=len` only, so two equal-length distinct
brands may be enumerated in either order across runs (hash randomization).
For the raw label `"ab cd x"` and the brand set `{ab, cd}`, the two
admissible enumeration orders give different extractor outputs, so
`extract_flavor_from_raw` is not a function of the raw label and the brand
*set* alone — the claimed run-to-run determinism fails. -/
theorem C9_brand_order_dependent :
    List.Perm ["ab".data, "cd".data] ["cd".data, "ab".data] ∧
    extract_flavor_core ["ab".data, "cd".data] "ab cd x" = "cd x" ∧
    extract_flavor_core ["cd".data, "ab".data] "ab cd x" = "x" :=
  ⟨List.Perm.swap _ _ _, by decide, by decide⟩

end SarmaCRM
